import Mathlib

/-!
Verification development for the gbvm-benchmark call-stack tracer
(src/src/gbvm-benchmark.js).

The program reconstructs a symbolic call-stack trace from a stream of
(program counter, memory bank, time) observations:

* `parseNoi` builds the symbol table (record construction + dedup core);
* `generateFunctionRegions` turns it into per-bank address regions;
* `getCurrentFunctionRegion` is the cached (pc, bank) → region index;
* `onAfterInstruction` is the per-instruction tracker state machine
  (`pushFrame`, `popFrame`, `fnStackContains`);
* `eventsBetween` / `symbolDuration` are the window aggregator used by
  `logFrameReport`.

All machine integers in the source are nonnegative JS numbers well below
2^31, modelled as `Nat` (bit operations `& 0xffff`, `>> 16`, `& 0xff`
become `% 0x10000`, `/ 0x10000`, `% 0x100`).  Durations are computed in
`Int` exactly as the JS subtraction does.
-/

set_option maxHeartbeats 1000000

/-- A symbol-table record as produced by `parseNoi`:
`{ symbol, addr, bank }` with `addr` the low 16 bits of the raw address
and `bank` 0 for the fixed low area, else bits 16–23 of the raw address. -/
structure NoiSymbol where
  symbol : String
  addr : Nat
  bank : Nat
deriving DecidableEq

/-- The (bank, address) key used for deduplication in `parseNoi`
(the source's string key `b${bank}_${addr}` is injective in (bank, addr),
so we use the pair itself). -/
def symKey (s : NoiSymbol) : Nat × Nat := (s.bank, s.addr)

/-- Record construction from one accepted `.noi` line: the source computes
`addr = fullAddr & 0xffff` and `bank = addr < 0x4000 ? 0 : (fullAddr >> 16) & 0xff`.
The textual side of `parseNoi` (regex line filtering and `$`-suffix name
cleanup) is pure string extraction that does not touch the (bank, address)
key; its output shape, a list of (symbol, fullAddr) pairs, is this
function's input. -/
def noiRecord (entry : String × Nat) : NoiSymbol :=
  let addr := entry.2 % 0x10000
  let bank := if addr < 0x4000 then 0 else (entry.2 / 0x10000) % 0x100
  ⟨entry.1, addr, bank⟩

/-- The accumulation loop of `parseNoi`: `usedAddr` is the set of
(bank, address) keys already pushed; a record whose key was seen before is
skipped (`if (!usedAddr[key])` in the source). -/
def parseNoiLoop : List (String × Nat) → List (Nat × Nat) → List NoiSymbol
  | [], _ => []
  | entry :: rest, usedAddr =>
    let r := noiRecord entry
    if symKey r ∈ usedAddr then
      parseNoiLoop rest usedAddr
    else
      r :: parseNoiLoop rest (symKey r :: usedAddr)

/-- `parseNoi` on the extracted (symbol, fullAddr) pairs. -/
def parseNoi (entries : List (String × Nat)) : List NoiSymbol :=
  parseNoiLoop entries []

/-- Specification-side dedup ("retain, for each (bank, address) key, the
first record encountered, in order"); used to state what `parseNoi`'s
dedup actually computes. -/
def keepFirstByKey : List NoiSymbol → List NoiSymbol
  | [] => []
  | s :: rest =>
    s :: (keepFirstByKey rest).filter (fun s' => !(symKey s' == symKey s))

/-- A function region: a symbol record extended with an inclusive `end`
address (field `end` in the source; `end` is a Lean keyword). -/
structure Region where
  symbol : String
  addr : Nat
  bank : Nat
  end_ : Nat
deriving DecidableEq

/-- Bank iteration order of `generateFunctionRegions`' `bankGroups` Map:
banks in order of first appearance in the symbol table (`seen` is the set
of banks already emitted). -/
def bankFirstAppearanceAux : List Nat → List Nat → List Nat
  | [], _ => []
  | b :: rest, seen =>
    if b ∈ seen then bankFirstAppearanceAux rest seen
    else b :: bankFirstAppearanceAux rest (b :: seen)

def bankFirstAppearance (banks : List Nat) : List Nat :=
  bankFirstAppearanceAux banks []

/-- The per-bank sort `symbols.sort((a, b) => a.addr - b.addr)`.  Within a
bank of a deduplicated table the addresses are distinct, so sort stability
is immaterial. -/
def sortByAddr (l : List NoiSymbol) : List NoiSymbol :=
  List.insertionSort (fun a b => a.addr ≤ b.addr) l

/-- End-address assignment of `generateFunctionRegions`: each symbol but
the last gets `end = min(addrMax, next.addr - 1)`; the last gets
`end = addrMax`. -/
def assignEnds (addrMax : Nat) : List NoiSymbol → List Region
  | [] => []
  | [s] => [⟨s.symbol, s.addr, s.bank, addrMax⟩]
  | s :: s' :: rest =>
    ⟨s.symbol, s.addr, s.bank, min addrMax (s'.addr - 1)⟩ ::
      assignEnds addrMax (s' :: rest)

/-- `generateFunctionRegions`: group by bank (Map insertion order), sort
each group by address, assign end addresses with
`addrMax = bank === 0 ? 0x3fff : 0x7fff`, and concatenate the groups. -/
def generateFunctionRegions (noiLookup : List NoiSymbol) : List Region :=
  (bankFirstAppearance (noiLookup.map (·.bank))).flatMap
    (fun bank =>
      assignEnds (if bank = 0 then 0x3fff else 0x7fff)
        (sortByAddr (noiLookup.filter (fun s => s.bank == bank))))

/-- The per-bank maximum address used by `generateFunctionRegions`
(`addrMax = bank === 0 ? 0x3fff : 0x7fff`), named for use in
statements. -/
def bankMaxAddr (bank : Nat) : Nat := if bank = 0 then 0x3fff else 0x7fff

/-- `regionsByBank[bank]`: the source builds this object once from
`functionRegions` in list order; filtering the region list by bank yields
the same per-bank list (a missing bank key and an empty list both make the
subsequent `find` return nothing). -/
def regionsByBank (regions : List Region) (bank : Nat) : List Region :=
  regions.filter (fun r => r.bank == bank)

/-- `bankRegions.find((fn) => pc >= fn.addr && pc <= fn.end)`. -/
def findRegion (bankRegions : List Region) (pc : Nat) : Option Region :=
  bankRegions.find? (fun r => decide (r.addr ≤ pc) && decide (pc ≤ r.end_))

/-- The uncached search half of `getCurrentFunctionRegion`:
`targetBank = pc < 0x4000 ? 0 : bank`, then scan that bank's region list. -/
def fullSearchRegion (regions : List Region) (pc bank : Nat) : Option Region :=
  let targetBank := if pc < 0x4000 then 0 else bank
  findRegion (regionsByBank regions targetBank) pc

/-- `getCurrentFunctionRegion(pc, bank)`: first test whether the cached
`currentFnRegion` still contains `(pc, bank)`; otherwise full search. -/
def getCurrentFunctionRegion (regions : List Region)
    (currentFnRegion : Option Region) (pc bank : Nat) : Option Region :=
  match currentFnRegion with
  | some fn =>
    if fn.addr ≤ pc ∧ pc ≤ fn.end_ ∧ (pc < 0x4000 ∨ fn.bank = bank) then
      some fn
    else
      fullSearchRegion regions pc bank
  | none => fullSearchRegion regions pc bank

/-- Speedscope event kind: `"O"` (open) or `"C"` (close). -/
inductive EventType where
  | O
  | C
deriving DecidableEq

/-- A recorded trace event.  The source stores `frame: noiIndex[symbol]`
and the aggregator immediately maps the index back through
`shared.frames[i].name`, recovering exactly the symbol string; we carry
the symbol itself.  `at` is a Lean keyword, hence `at_`.  Close events
additionally record the opening clock (`start`). -/
structure TraceEvent where
  type : EventType
  at_ : Nat
  frame : String
  start : Option Nat
deriving DecidableEq

/-- A call-stack frame (`fnStack` entry).  The source also stores a
`prefix` string used only by verbose logging and never read elsewhere;
it is omitted. -/
structure Frame where
  symbol : String
  addr : Nat
  clock : Nat
  childPushed : Bool
  openPrinted : Bool
  indent : Nat
deriving DecidableEq

/-- The tracker's mutable state: the cached current region, the frame
stack (the JS array's top, its last element, is the list head here), and
the recorded event sequence (in arrival order). -/
structure TrackerState where
  currentFnRegion : Option Region
  fnStack : List Frame
  events : List TraceEvent
deriving DecidableEq

def openEvent (symbol : String) (time : Nat) : TraceEvent :=
  ⟨.O, time, symbol, none⟩

def closeEvent (time : Nat) (f : Frame) : TraceEvent :=
  ⟨.C, time, f.symbol, some f.clock⟩

/-- `pushFrame`'s mutation of the parent frame (`parent.childPushed = true`
and, after printing, `parent.openPrinted = true`). -/
def markParent : List Frame → List Frame
  | [] => []
  | parent :: rest =>
    { parent with childPushed := true, openPrinted := true } :: rest

/-- The frame object literal pushed by `pushFrame`
(`indent: fnStack.length` before the push). -/
def mkFrame (fn : Region) (time depth : Nat) : Frame :=
  ⟨fn.symbol, fn.addr, time, false, false, depth⟩

/-- `pushFrame(fn)`: mark the parent, push a fresh frame, and record an
Open event at the current time. -/
def pushFrame (fn : Region) (time : Nat) (s : TrackerState) : TrackerState :=
  { s with
    fnStack := mkFrame fn time s.fnStack.length :: markParent s.fnStack,
    events := s.events ++ [openEvent fn.symbol time] }

/-- `fnStackContains(searchFn)`: is the symbol anywhere on the stack? -/
def fnStackContains (searchFn : Region) (fnStack : List Frame) : Bool :=
  fnStack.any (fun f => f.symbol == searchFn.symbol)

/-- The `while` loop of `popFrame`: pop (recording a Close event, tagged
with the popped frame's opening clock) while the stack is nonempty and the
top symbol differs from the target.  `target = none` models the
argument-less end-of-run call `popFrame()`, whose `fn?.symbol` is
`undefined` and never equal to a frame symbol. -/
def popLoop (target : Option String) (time : Nat) :
    List Frame → List TraceEvent → List Frame × List TraceEvent
  | [], events => ([], events)
  | f :: rest, events =>
    if target = some f.symbol then
      (f :: rest, events)
    else
      popLoop target time rest (events ++ [closeEvent time f])

/-- `popFrame(fn)`. -/
def popFrame (fn : Option Region) (time : Nat) (s : TrackerState) :
    TrackerState :=
  let res := popLoop (fn.map (·.symbol)) time s.fnStack s.events
  { s with fnStack := res.1, events := res.2 }

/-- The per-instruction callback `gb.cpu.onAfterInstruction`, with the
implicit emulator inputs (pc, current bank, clock time) made explicit.
Observations with `pc < 336` are ignored.  Note the early return when no
region resolves: the trailing `currentFnRegion = null` of the source is
unreachable, because the first guard already returned in the
no-region case. -/
def onAfterInstruction (regions : List Region) (s : TrackerState)
    (pc bank time : Nat) : TrackerState :=
  if pc < 336 then s
  else
    match getCurrentFunctionRegion regions s.currentFnRegion pc bank with
    | none => s
    | some newFn =>
      if s.currentFnRegion = some newFn then s
      else if pc = newFn.addr then
        { pushFrame newFn time s with currentFnRegion := some newFn }
      else if fnStackContains newFn s.fnStack then
        { popFrame (some newFn) time s with currentFnRegion := some newFn }
      else
        { pushFrame newFn time s with currentFnRegion := some newFn }

/-- One emulator observation: program counter, mapped bank, clock time. -/
structure Obs where
  pc : Nat
  bank : Nat
  time : Nat

def initialTrackerState : TrackerState := ⟨none, [], []⟩

/-- Run the tracker over a whole observation stream. -/
def runTracker (regions : List Region) (obs : List Obs) : TrackerState :=
  obs.foldl (fun s o => onAfterInstruction regions s o.pc o.bank o.time)
    initialTrackerState

/-- The end-of-run forced close: `main` calls `popFrame()` (no argument)
after the last frame, closing every still-open frame at the final time. -/
def finalizeRun (time : Nat) (s : TrackerState) : TrackerState :=
  popFrame none time s

/-- An occurrence interval reconstructed by `eventsBetween`:
`end = Infinity` (an occurrence still open at trace end) is `none`. -/
structure OccInterval where
  start : Nat
  end_ : Option Nat
  frame : String
deriving DecidableEq

/-- `stack[frame].push(at)` (creating the entry on first use; JS object
string keys enumerate in insertion order, modelled by an association list
that appends new keys).  The JS array's last element is the list head. -/
def pushTime (k : String) (t : Nat) :
    List (String × List Nat) → List (String × List Nat)
  | [] => [(k, [t])]
  | (k', ts) :: rest =>
    if k' = k then (k', t :: ts) :: rest
    else (k', ts) :: pushTime k t rest

/-- `stack[frame].pop()` when the entry exists and is nonempty; `none`
otherwise (in which case the source drops the Close event). -/
def popTime (k : String) :
    List (String × List Nat) → Option (Nat × List (String × List Nat))
  | [] => none
  | (k', ts) :: rest =>
    if k' = k then
      match ts with
      | [] => none
      | t :: ts' => some (t, (k', ts') :: rest)
    else
      (popTime k rest).map (fun p => (p.1, (k', ts) :: p.2))

/-- The O/C pair-matching loop of `eventsBetween`. -/
def pairFold (acc : List (String × List Nat) × List OccInterval)
    (e : TraceEvent) : List (String × List Nat) × List OccInterval :=
  match e.type with
  | .O => (pushTime e.frame e.at_ acc.1, acc.2)
  | .C =>
    match popTime e.frame acc.1 with
    | none => acc
    | some p => (p.2, acc.2 ++ [⟨p.1, some e.at_, e.frame⟩])

/-- All occurrence intervals of a trace: matched O/C pairs, then the
remaining (ongoing) opens with `end = Infinity`.  The source iterates a
leftover per-frame array bottom-first, i.e. the reverse of our
head-is-top list.  This list does not depend on the query window. -/
def allIntervals (events : List TraceEvent) : List OccInterval :=
  let res := events.foldl pairFold ([], [])
  res.2 ++ res.1.flatMap (fun p => p.2.reverse.map (fun t => ⟨t, none, p.1⟩))

/-- The overlap filter `ev.end > start && ev.start < end`
(`Infinity > start` is always true). -/
def ivOverlaps (iv : OccInterval) (a b : Nat) : Bool :=
  (match iv.end_ with
   | none => true
   | some e => decide (a < e)) && decide (iv.start < b)

/-- `eventsBetween(events, start, end)`. -/
def eventsBetween (events : List TraceEvent) (a b : Nat) : List OccInterval :=
  (allIntervals events).filter (fun iv => ivOverlaps iv a b)

/-- One interval's contribution in `logFrameReport`:
`Math.min(e.end, end) - Math.max(e.start, start)`, with
`min(Infinity, end) = end`; JS subtraction, hence `Int`. -/
def clampedDuration (a b : Nat) (iv : OccInterval) : Int :=
  (match iv.end_ with
   | none => (b : Int)
   | some e => min (e : Int) (b : Int)) - max (iv.start : Int) (a : Int)

/-- The per-symbol summed duration computed by `logFrameReport`'s
`frameMap` for window `[a, b)`: all intervals of that symbol overlapping
the window, with clamped durations added up. -/
def symbolDuration (events : List TraceEvent) (a b : Nat) (name : String) :
    Int :=
  (((eventsBetween events a b).filter (fun iv => iv.frame == name)).map
    (clampedDuration a b)).sum

/-- Event replay for stating stack discipline: scan the trace keeping the
stack of currently open occurrences (head = most recent); an Open pushes
its symbol, a Close must match the most recently opened unclosed
occurrence, else the replay fails (`none`). -/
def replayStep (st : Option (List String)) (e : TraceEvent) :
    Option (List String) :=
  match st with
  | none => none
  | some stack =>
    match e.type with
    | .O => some (e.frame :: stack)
    | .C =>
      match stack with
      | [] => none
      | top :: rest => if top = e.frame then some rest else none

def replay (events : List TraceEvent) : Option (List String) :=
  events.foldl replayStep (some [])

def countType (t : EventType) (events : List TraceEvent) : Nat :=
  (events.filter (fun e => e.type == t)).length

/-- The symbol table of the end-to-end scenario (§8 of the spec). -/
def scenarioTable : List NoiSymbol :=
  [⟨"main", 0x150, 0⟩, ⟨"helper", 0x200, 0⟩]

def scenarioRegions : List Region := generateFunctionRegions scenarioTable

/-- The §8 observation stream `(0x150,0,0), (0x200,0,10), (0x150,0,20)`. -/
def scenarioObs : List Obs := [⟨0x150, 0, 0⟩, ⟨0x200, 0, 10⟩, ⟨0x150, 0, 20⟩]

/-- Symbol table for the recursion-fidelity scenario: `f` at 0x150 and
`g` at 0x200 in bank 0 (regions `f:[0x150,0x1FF]`, `g:[0x200,0x3FFF]`). -/
def recursionTable : List NoiSymbol :=
  [⟨"f", 0x150, 0⟩, ⟨"g", 0x200, 0⟩]

def recursionRegions : List Region := generateFunctionRegions recursionTable

/-- A synthetic stream in which `f` calls `g`, `g` calls `f` again (the
second occurrence of the same symbol), then each returns: enter `f` at its
start, enter `g` at its start, re-enter `f` at its start (second
occurrence), land mid-`g` (return to `g`), land mid-`f` (return to the
outer `f`). -/
def recursionObs : List Obs :=
  [⟨0x150, 0, 0⟩, ⟨0x200, 0, 10⟩, ⟨0x150, 0, 20⟩, ⟨0x201, 0, 30⟩,
   ⟨0x151, 0, 40⟩]

/-! ## Claim C1: the end-to-end scenario -/

/-- Claim C1 counterexample: on the §8 scenario the recorded trace is NOT
`[Open main@0, Open helper@10, Close helper@20]`, the stack is not just
`main`, and the window `[0,20)` duration of `main` is not 10. -/
theorem scenario_claim_false :
    (runTracker scenarioRegions scenarioObs).events ≠
      [openEvent "main" 0, openEvent "helper" 10,
       ⟨EventType.C, 20, "helper", some 10⟩] ∧
    (runTracker scenarioRegions scenarioObs).fnStack.map (fun f => f.symbol) ≠
      ["main"] ∧
    symbolDuration (runTracker scenarioRegions scenarioObs).events 0 20
      "main" ≠ 10 := by
  refine ⟨?_, ?_, ?_⟩ <;> decide

/-- Claim C1 (amended): feeding the tracker the scenario observation
stream `(0x150,0,0), (0x200,0,10), (0x150,0,20)` yields exactly the
events Open main@0, Open helper@10, Open main@20 — the third observation
lands exactly at main's entry address, so rule 3 opens a second
occurrence of main instead of closing helper — leaving main, helper and
a second main all open; and the window `[0,20)` aggregation over the
resulting trace reports helper = 10 and main = 20. -/
theorem scenario_run :
    (runTracker scenarioRegions scenarioObs).events =
      [openEvent "main" 0, openEvent "helper" 10, openEvent "main" 20] ∧
    (runTracker scenarioRegions scenarioObs).fnStack.map
      (fun f => (f.symbol, f.clock)) =
      [("main", 20), ("helper", 10), ("main", 0)] ∧
    symbolDuration (runTracker scenarioRegions scenarioObs).events 0 20
      "helper" = 10 ∧
    symbolDuration (runTracker scenarioRegions scenarioObs).events 0 20
      "main" = 20 := by
  refine ⟨?_, ?_, ?_, ?_⟩ <;> decide

/-! ## Claim C7: recursion fidelity -/

/-- Claim C7: on the synthetic recursion stream, the tracker pushes two
distinct frames for `f` (opened at 0 and at 20; after the third
observation the stack is `f, g, f`), closes the inner occurrence (opened
at 20, closed at 30) before the outer one (opened at 0, force-closed at
50), and the window aggregator over `[0,50)` reports the two occurrences'
durations summed under the single name `f`:
`(30 - 20) + (50 - 0) = 60`. -/
theorem recursion_fidelity :
    (runTracker recursionRegions (recursionObs.take 3)).fnStack.map
      (fun f => (f.symbol, f.clock)) = [("f", 20), ("g", 10), ("f", 0)] ∧
    (finalizeRun 50 (runTracker recursionRegions recursionObs)).events =
      [openEvent "f" 0, openEvent "g" 10, openEvent "f" 20,
       ⟨EventType.C, 30, "f", some 20⟩, ⟨EventType.C, 40, "g", some 10⟩,
       ⟨EventType.C, 50, "f", some 0⟩] ∧
    symbolDuration
      (finalizeRun 50 (runTracker recursionRegions recursionObs)).events
      0 50 "f" = (30 - 20) + (50 - 0) := by
  refine ⟨?_, ?_, ?_⟩ <;> decide

/-! ## Claim C8: unresolved addresses -/

/-- Claim C8 (code bug): after entering `main`, an observation at an
address resolving to no region (pc = 0x4000, bank 5) leaves the whole
tracker state unchanged — the stack and events are untouched as the claim
says, but `currentFnRegion` stays `main` instead of being set to none:
the handler returns early on an unresolved lookup, and its trailing
`currentFnRegion = null` assignment is unreachable. -/
theorem untracked_keeps_state :
    onAfterInstruction scenarioRegions
      (runTracker scenarioRegions [⟨0x150, 0, 0⟩]) 0x4000 5 30 =
      runTracker scenarioRegions [⟨0x150, 0, 0⟩] ∧
    (runTracker scenarioRegions [⟨0x150, 0, 0⟩]).currentFnRegion =
      some ⟨"main", 0x150, 0, 0x1ff⟩ := by
  refine ⟨?_, ?_⟩ <;> decide

/-! ## Claim C10: symbol-table deduplication -/

/-- Claim C10 counterexample: two records with the same (bank, address)
key — symbol "a" then symbol "b", both at address 0x150 — are resolved by
keeping the FIRST record encountered, not the last: the parser yields the
"a" record, which differs from the "b" record last-write-wins would
keep. -/
theorem parseNoi_last_write_wins_false :
    parseNoi [("a", 0x150), ("b", 0x150)] =
      [(⟨"a", 0x150, 0⟩ : NoiSymbol)] ∧
    (⟨"a", 0x150, 0⟩ : NoiSymbol) ≠ ⟨"b", 0x150, 0⟩ := by
  refine ⟨?_, ?_⟩ <;> decide

lemma keepFirstByKey_filter (k : Nat × Nat) (l : List NoiSymbol) :
    keepFirstByKey (l.filter (fun s => !(symKey s == k))) =
      (keepFirstByKey l).filter (fun s => !(symKey s == k)) := by
  induction l with
  | nil => rfl
  | cons s rest ih =>
    by_cases h : symKey s = k
    · have hs : (!(symKey s == k)) = false := by simp [h]
      rw [List.filter_cons, hs]
      simp only [Bool.false_eq_true, if_false]
      rw [ih, keepFirstByKey, List.filter_cons, hs]
      simp only [Bool.false_eq_true, if_false]
      rw [List.filter_filter]
      refine (List.filter_congr fun x _ => ?_).symm
      simp [h]
    · have hs : (!(symKey s == k)) = true := by simp [h]
      rw [List.filter_cons, hs]
      simp only [if_true]
      rw [keepFirstByKey, keepFirstByKey, ih, List.filter_cons, hs]
      simp only [if_true]
      rw [List.filter_filter, List.filter_filter]
      exact congrArg _ (List.filter_congr fun x _ => Bool.and_comm _ _)

lemma parseNoiLoop_eq (entries : List (String × Nat)) (used : List (Nat × Nat)) :
    parseNoiLoop entries used =
      keepFirstByKey ((entries.map noiRecord).filter
        (fun s => !(decide (symKey s ∈ used)))) := by
  induction entries generalizing used with
  | nil => rfl
  | cons e rest ih =>
    rw [parseNoiLoop, List.map_cons, List.filter_cons]
    by_cases h : symKey (noiRecord e) ∈ used
    · have hd : (!(decide (symKey (noiRecord e) ∈ used))) = false := by simp [h]
      rw [if_pos h, hd]
      simp only [Bool.false_eq_true, if_false]
      exact ih used
    · have hd : (!(decide (symKey (noiRecord e) ∈ used))) = true := by simp [h]
      rw [if_neg h, hd]
      simp only [if_true]
      simp only [keepFirstByKey]
      rw [ih (symKey (noiRecord e) :: used)]
      congr 1
      have hpred : ∀ x : NoiSymbol,
          (!(decide (symKey x ∈ symKey (noiRecord e) :: used))) =
            ((!(symKey x == symKey (noiRecord e))) &&
              (!(decide (symKey x ∈ used)))) := by
        intro x
        by_cases h1 : symKey x = symKey (noiRecord e) <;>
          by_cases h2 : symKey x ∈ used <;> simp [h1, h2]
      rw [List.filter_congr (fun x _ => hpred x), ← List.filter_filter,
        keepFirstByKey_filter]

lemma keepFirstByKey_keys_nodup (l : List NoiSymbol) :
    ((keepFirstByKey l).map symKey).Nodup := by
  induction l with
  | nil => simp [keepFirstByKey]
  | cons s rest ih =>
    simp only [keepFirstByKey, List.map_cons, List.nodup_cons]
    constructor
    · simp only [List.mem_map, not_exists, not_and]
      intro x hx hkey
      have hmem := List.of_mem_filter hx
      rw [hkey] at hmem
      simp at hmem
    · exact List.Nodup.sublist
        (List.Sublist.map symKey (List.filter_sublist _)) ih

/-- Claim C10 (amended): when the raw symbol list contains several records
with the same (bank, normalized address) key, the constructed symbol table
retains exactly one record per key — namely the FIRST one encountered
(first-write-wins, from the `if (!usedAddr[key])` guard), not the last. -/
theorem parseNoi_first_write_wins (entries : List (String × Nat)) :
    parseNoi entries = keepFirstByKey (entries.map noiRecord) ∧
    ((parseNoi entries).map symKey).Nodup := by
  have h := parseNoiLoop_eq entries []
  have hf : (entries.map noiRecord).filter
      (fun s => !(decide (symKey s ∈ ([] : List (Nat × Nat))))) =
      entries.map noiRecord := by
    simp
  rw [parseNoi, h, hf]
  exact ⟨rfl, keepFirstByKey_keys_nodup _⟩

/-! ## Trace balance machinery (claim C2) -/

lemma markParent_length (l : List Frame) :
    (markParent l).length = l.length := by
  cases l <;> rfl

lemma markParent_map_symbol (l : List Frame) :
    (markParent l).map (fun f => f.symbol) = l.map (fun f => f.symbol) := by
  cases l <;> rfl

lemma markParent_map_symbol_clock (l : List Frame) :
    (markParent l).map (fun f => (f.symbol, f.clock)) =
      l.map (fun f => (f.symbol, f.clock)) := by
  cases l <;> rfl

lemma countType_append (t : EventType) (evs evs' : List TraceEvent) :
    countType t (evs ++ evs') = countType t evs + countType t evs' := by
  simp [countType, List.filter_append]

lemma countType_openEvent (sym : String) (time : Nat) :
    countType EventType.O [openEvent sym time] = 1 ∧
    countType EventType.C [openEvent sym time] = 0 := by
  constructor <;> rfl

lemma countType_closeEvent (time : Nat) (f : Frame) :
    countType EventType.O [closeEvent time f] = 0 ∧
    countType EventType.C [closeEvent time f] = 1 := by
  constructor <;> rfl

lemma replay_append (evs evs' : List TraceEvent) :
    replay (evs ++ evs') = evs'.foldl replayStep (replay evs) := by
  simp [replay, List.foldl_append]

lemma replay_append_open (evs : List TraceEvent) (st : List String)
    (h : replay evs = some st) (sym : String) (time : Nat) :
    replay (evs ++ [openEvent sym time]) = some (sym :: st) := by
  rw [replay_append, h]
  rfl

lemma replay_append_close (evs : List TraceEvent) (sym : String)
    (st : List String) (h : replay evs = some (sym :: st)) (time : Nat)
    (f : Frame) (hf : f.symbol = sym) :
    replay (evs ++ [closeEvent time f]) = some st := by
  rw [replay_append, h]
  simp [replayStep, closeEvent, hf]

/-- The invariant tying the recorded events to the live stack: replaying
the events so far succeeds and reproduces exactly the open occurrences on
`fnStack` (top first), and the Open events outnumber the Close events by
exactly the stack height. -/
def StackEventInv (s : TrackerState) : Prop :=
  replay s.events = some (s.fnStack.map (fun f => f.symbol)) ∧
  countType EventType.O s.events =
    countType EventType.C s.events + s.fnStack.length

lemma stackEventInv_initial : StackEventInv initialTrackerState := by
  constructor <;> rfl

lemma stackEventInv_pushFrame (fn : Region) (time : Nat) (s : TrackerState)
    (h : StackEventInv s) : StackEventInv (pushFrame fn time s) := by
  obtain ⟨hr, hc⟩ := h
  constructor
  · simp only [pushFrame, List.map_cons, markParent_map_symbol]
    exact replay_append_open _ _ hr _ _
  · simp only [pushFrame, countType_append]
    rw [(countType_openEvent fn.symbol time).1,
      (countType_openEvent fn.symbol time).2]
    simp only [List.length_cons, markParent_map_symbol]
    rw [markParent_length]
    omega

lemma popLoop_inv (target : Option String) (time : Nat) (stack : List Frame)
    (evs : List TraceEvent)
    (hr : replay evs = some (stack.map (fun f => f.symbol)))
    (hc : countType EventType.O evs =
      countType EventType.C evs + stack.length) :
    replay (popLoop target time stack evs).2 =
      some ((popLoop target time stack evs).1.map (fun f => f.symbol)) ∧
    countType EventType.O (popLoop target time stack evs).2 =
      countType EventType.C (popLoop target time stack evs).2 +
        (popLoop target time stack evs).1.length := by
  induction stack generalizing evs with
  | nil => exact ⟨hr, hc⟩
  | cons f rest ih =>
    rw [popLoop]
    by_cases hf : target = some f.symbol
    · rw [if_pos hf]
      exact ⟨hr, hc⟩
    · rw [if_neg hf]
      refine ih (evs ++ [closeEvent time f]) ?_ ?_
      · exact replay_append_close _ _ _ hr _ _ rfl
      · rw [countType_append, countType_append,
          (countType_closeEvent time f).1, (countType_closeEvent time f).2]
        simp only [List.length_cons] at hc
        omega

lemma popLoop_none_empties (time : Nat) (stack : List Frame)
    (evs : List TraceEvent) :
    (popLoop none time stack evs).1 = [] := by
  induction stack generalizing evs with
  | nil => rfl
  | cons f rest ih =>
    rw [popLoop, if_neg (by simp)]
    exact ih _

lemma stackEventInv_popFrame (fn : Option Region) (time : Nat)
    (s : TrackerState) (h : StackEventInv s) :
    StackEventInv (popFrame fn time s) := by
  obtain ⟨hr, hc⟩ := h
  have hmain := popLoop_inv (fn.map (fun r => r.symbol)) time s.fnStack
    s.events hr hc
  exact ⟨hmain.1, hmain.2⟩

lemma stackEventInv_onAfterInstruction (regions : List Region)
    (s : TrackerState) (pc bank time : Nat) (h : StackEventInv s) :
    StackEventInv (onAfterInstruction regions s pc bank time) := by
  rw [onAfterInstruction]
  split
  · exact h
  split
  · exact h
  split
  · exact h
  split
  · exact stackEventInv_pushFrame _ _ _ h
  split
  · exact stackEventInv_popFrame _ _ _ h
  · exact stackEventInv_pushFrame _ _ _ h

lemma stackEventInv_runTracker (regions : List Region) (obs : List Obs) :
    StackEventInv (runTracker regions obs) := by
  rw [runTracker]
  have : ∀ s : TrackerState, StackEventInv s →
      StackEventInv (obs.foldl
        (fun s o => onAfterInstruction regions s o.pc o.bank o.time) s) := by
    induction obs with
    | nil => exact fun s h => h
    | cons o rest ih =>
      intro s h
      exact ih _ (stackEventInv_onAfterInstruction _ _ _ _ _ h)
  exact this _ stackEventInv_initial

/-- Claim C2: for every region table and observation stream processed to
completion and then force-closed at the final time, the finalized trace
has exactly as many Open as Close events, and replaying the events in
order succeeds with an empty final stack — every Close closes the most
recently opened unclosed occurrence (last-opened-first-closed), and none
is ever unmatched. -/
theorem trace_balanced (regions : List Region) (obs : List Obs) (t : Nat) :
    countType EventType.O (finalizeRun t (runTracker regions obs)).events =
      countType EventType.C (finalizeRun t (runTracker regions obs)).events ∧
    replay (finalizeRun t (runTracker regions obs)).events = some [] := by
  obtain ⟨hr, hc⟩ := stackEventInv_runTracker regions obs
  have hinv := popLoop_inv none t (runTracker regions obs).fnStack
    (runTracker regions obs).events hr hc
  have hempty := popLoop_none_empties t (runTracker regions obs).fnStack
    (runTracker regions obs).events
  rw [hempty] at hinv
  obtain ⟨hr', hc'⟩ := hinv
  simp only [List.map_nil, List.length_nil, Nat.add_zero] at hr' hc'
  exact ⟨hc', hr'⟩

/-! ## Claims C3 and C9: mid-region entry handling -/

lemma fnStackContains_iff (R : Region) (stack : List Frame) :
    fnStackContains R stack = true ↔ ∃ f ∈ stack, f.symbol = R.symbol := by
  simp [fnStackContains, List.any_eq_true]

lemma popLoop_found (sym : String) (time : Nat) (stack : List Frame)
    (evs : List TraceEvent) (h : ∃ f ∈ stack, f.symbol = sym) :
    ∃ popped top rest,
      stack = popped ++ top :: rest ∧
      (∀ f ∈ popped, f.symbol ≠ sym) ∧
      top.symbol = sym ∧
      popLoop (some sym) time stack evs =
        (top :: rest, evs ++ popped.map (closeEvent time)) := by
  induction stack generalizing evs with
  | nil => simp at h
  | cons f rest ih =>
    by_cases hf : f.symbol = sym
    · refine ⟨[], f, rest, rfl, by simp, hf, ?_⟩
      rw [popLoop, if_pos (by rw [hf])]
      simp
    · have h' : ∃ g ∈ rest, g.symbol = sym := by
        obtain ⟨g, hg, hsym⟩ := h
        rcases List.mem_cons.mp hg with rfl | hg'
        · exact absurd hsym hf
        · exact ⟨g, hg', hsym⟩
      obtain ⟨popped, top, rest', hsplit, hpop, htop, hloop⟩ :=
        ih (evs ++ [closeEvent time f]) h'
      refine ⟨f :: popped, top, rest', by rw [List.cons_append, hsplit], ?_,
        htop, ?_⟩
      · intro g hg
        rcases List.mem_cons.mp hg with rfl | hg'
        · exact hf
        · exact hpop g hg'
      · rw [popLoop, if_neg (fun hc => hf (Option.some.inj hc).symm), hloop]
        simp

/-- Claim C3: on an observation resolving to a region `R` that differs
from the current region, with `pc` strictly inside `R` (`pc ≠ R.addr`)
and `R`'s symbol present somewhere on the stack, the tracker pops exactly
the frames strictly above the topmost frame bearing that symbol, emits
for each popped frame a Close event at the current time tagged with that
frame's occurrence (its opening clock), leaves the matching frame as the
new top with all frames below it unchanged, and sets the current region
to `R`. -/
theorem tracker_return_unwinds (regions : List Region) (s : TrackerState)
    (pc bank time : Nat) (R : Region)
    (hpc : ¬ pc < 336)
    (hlook : getCurrentFunctionRegion regions s.currentFnRegion pc bank =
      some R)
    (hcur : s.currentFnRegion ≠ some R)
    (hmid : pc ≠ R.addr)
    (hstk : fnStackContains R s.fnStack = true) :
    ∃ popped top rest,
      s.fnStack = popped ++ top :: rest ∧
      (∀ f ∈ popped, f.symbol ≠ R.symbol) ∧
      top.symbol = R.symbol ∧
      onAfterInstruction regions s pc bank time =
        ⟨some R, top :: rest, s.events ++ popped.map (closeEvent time)⟩ := by
  obtain ⟨popped, top, rest, hsplit, hpop, htop, hloop⟩ :=
    popLoop_found R.symbol time s.fnStack s.events
      ((fnStackContains_iff R s.fnStack).mp hstk)
  refine ⟨popped, top, rest, hsplit, hpop, htop, ?_⟩
  rw [onAfterInstruction, if_neg hpc, hlook]
  simp only [if_neg hcur, if_neg hmid, hstk, if_true]
  simp [popFrame, hloop]

/-- Claim C3 witness: after entering `main` then `helper` in the §8
scenario, the observation (pc = 0x151, bank 0, time 20) lands mid-`main`
with `main` below on the stack: the tracker pops and closes `helper` and
leaves `main` (opened at 0) as the top. -/
theorem tracker_return_unwinds_witness :
    (¬ (0x151 : Nat) < 336) ∧
    getCurrentFunctionRegion scenarioRegions
      (runTracker scenarioRegions [⟨0x150, 0, 0⟩, ⟨0x200, 0, 10⟩]).currentFnRegion
      0x151 0 = some ⟨"main", 0x150, 0, 0x1ff⟩ ∧
    (runTracker scenarioRegions [⟨0x150, 0, 0⟩, ⟨0x200, 0, 10⟩]).currentFnRegion ≠
      some ⟨"main", 0x150, 0, 0x1ff⟩ ∧
    (0x151 : Nat) ≠ (⟨"main", 0x150, 0, 0x1ff⟩ : Region).addr ∧
    fnStackContains ⟨"main", 0x150, 0, 0x1ff⟩
      (runTracker scenarioRegions [⟨0x150, 0, 0⟩, ⟨0x200, 0, 10⟩]).fnStack =
      true ∧
    (∃ popped top rest,
      (runTracker scenarioRegions [⟨0x150, 0, 0⟩, ⟨0x200, 0, 10⟩]).fnStack =
        popped ++ top :: rest ∧
      (∀ f ∈ popped, f.symbol ≠ "main") ∧
      top.symbol = "main" ∧
      onAfterInstruction scenarioRegions
        (runTracker scenarioRegions [⟨0x150, 0, 0⟩, ⟨0x200, 0, 10⟩])
        0x151 0 20 =
        ⟨some ⟨"main", 0x150, 0, 0x1ff⟩, top :: rest,
          (runTracker scenarioRegions [⟨0x150, 0, 0⟩, ⟨0x200, 0, 10⟩]).events ++
            popped.map (closeEvent 20)⟩) :=
  ⟨by decide, by decide, by decide, by decide, by decide,
    tracker_return_unwinds scenarioRegions
      (runTracker scenarioRegions [⟨0x150, 0, 0⟩, ⟨0x200, 0, 10⟩])
      0x151 0 20 ⟨"main", 0x150, 0, 0x1ff⟩
      (by decide) (by decide) (by decide) (by decide) (by decide)⟩

/-- Claim C9: on an observation resolving to a region `R` with `pc`
strictly inside `R` whose symbol is absent from the stack — including the
empty stack — the tracker performs a plain push: exactly one new frame
for `R` on top (the frames beneath keep their symbols and opening
clocks), a single Open event appended, no Close event, no pop, and no
crash (the transition is a total function). -/
theorem tracker_fresh_midentry (regions : List Region) (s : TrackerState)
    (pc bank time : Nat) (R : Region)
    (hpc : ¬ pc < 336)
    (hlook : getCurrentFunctionRegion regions s.currentFnRegion pc bank =
      some R)
    (hcur : s.currentFnRegion ≠ some R)
    (hmid : pc ≠ R.addr)
    (habs : fnStackContains R s.fnStack = false) :
    onAfterInstruction regions s pc bank time =
      ⟨some R, mkFrame R time s.fnStack.length :: markParent s.fnStack,
        s.events ++ [openEvent R.symbol time]⟩ ∧
    (markParent s.fnStack).map (fun f => (f.symbol, f.clock)) =
      s.fnStack.map (fun f => (f.symbol, f.clock)) ∧
    countType EventType.C (s.events ++ [openEvent R.symbol time]) =
      countType EventType.C s.events := by
  refine ⟨?_, markParent_map_symbol_clock s.fnStack, ?_⟩
  · rw [onAfterInstruction, if_neg hpc, hlook]
    simp only [if_neg hcur, if_neg hmid, habs, Bool.false_eq_true, if_false]
    simp [pushFrame]
  · rw [countType_append, (countType_openEvent R.symbol time).2]
    omega

/-- Claim C9 witness: with an empty stack (the forced-pop/underflow
situation), the observation (pc = 0x151, bank 0, time 5) lands mid-`main`
whose symbol is on no frame; the tracker pushes a single `main` frame and
emits one Open and no Close. -/
theorem tracker_fresh_midentry_witness :
    (¬ (0x151 : Nat) < 336) ∧
    getCurrentFunctionRegion scenarioRegions
      initialTrackerState.currentFnRegion 0x151 0 =
      some ⟨"main", 0x150, 0, 0x1ff⟩ ∧
    initialTrackerState.currentFnRegion ≠ some ⟨"main", 0x150, 0, 0x1ff⟩ ∧
    (0x151 : Nat) ≠ (⟨"main", 0x150, 0, 0x1ff⟩ : Region).addr ∧
    fnStackContains ⟨"main", 0x150, 0, 0x1ff⟩ initialTrackerState.fnStack =
      false ∧
    (onAfterInstruction scenarioRegions initialTrackerState 0x151 0 5 =
      ⟨some ⟨"main", 0x150, 0, 0x1ff⟩,
        mkFrame ⟨"main", 0x150, 0, 0x1ff⟩ 5
          initialTrackerState.fnStack.length ::
          markParent initialTrackerState.fnStack,
        initialTrackerState.events ++ [openEvent "main" 5]⟩ ∧
      (markParent initialTrackerState.fnStack).map
        (fun f => (f.symbol, f.clock)) =
        initialTrackerState.fnStack.map (fun f => (f.symbol, f.clock)) ∧
      countType EventType.C
        (initialTrackerState.events ++ [openEvent "main" 5]) =
        countType EventType.C initialTrackerState.events) :=
  ⟨by decide, by decide, by decide, by decide, by decide,
    tracker_fresh_midentry scenarioRegions initialTrackerState 0x151 0 5
      ⟨"main", 0x150, 0, 0x1ff⟩
      (by decide) (by decide) (by decide) (by decide) (by decide)⟩

/-! ## Region builder lemmas (claims C4 and C5) -/

instance : IsTotal NoiSymbol (fun a b => a.addr ≤ b.addr) :=
  ⟨fun a b => Nat.le_total a.addr b.addr⟩

instance : IsTrans NoiSymbol (fun a b => a.addr ≤ b.addr) :=
  ⟨fun _ _ _ h1 h2 => Nat.le_trans h1 h2⟩

lemma mem_assignEnds {addrMax : Nat} {l : List NoiSymbol} {r : Region}
    (h : r ∈ assignEnds addrMax l) :
    ∃ s ∈ l, r.symbol = s.symbol ∧ r.addr = s.addr ∧ r.bank = s.bank ∧
      r.end_ ≤ addrMax := by
  induction l with
  | nil => simp [assignEnds] at h
  | cons s rest ih =>
    cases rest with
    | nil =>
      simp only [assignEnds, List.mem_singleton] at h
      subst h
      exact ⟨s, by simp, rfl, rfl, rfl, le_refl _⟩
    | cons s' rest' =>
      simp only [assignEnds, List.mem_cons] at h
      rcases h with rfl | h'
      · exact ⟨s, by simp, rfl, rfl, rfl, min_le_left _ _⟩
      · obtain ⟨t, ht, h1, h2, h3, h4⟩ := ih h'
        exact ⟨t, List.mem_cons_of_mem _ ht, h1, h2, h3, h4⟩

lemma assignEnds_pairwise {addrMax : Nat} {l : List NoiSymbol}
    (hsort : l.Pairwise (fun a b => a.addr < b.addr)) :
    (assignEnds addrMax l).Pairwise (fun r r' => r.end_ < r'.addr) := by
  induction l with
  | nil => simp [assignEnds]
  | cons s rest ih =>
    cases rest with
    | nil => simp [assignEnds]
    | cons s' rest' =>
      simp only [assignEnds, List.pairwise_cons]
      obtain ⟨hhead, htail⟩ := List.pairwise_cons.mp hsort
      constructor
      · intro r hr
        obtain ⟨t, ht, _, h2, _, _⟩ := mem_assignEnds hr
        have hs't : s'.addr ≤ t.addr := by
          rcases List.mem_cons.mp ht with rfl | ht'
          · exact le_refl _
          · exact le_of_lt ((List.pairwise_cons.mp htail).1 t ht')
        have hss' : s.addr < s'.addr := hhead s' (by simp)
        have hmin : min addrMax (s'.addr - 1) ≤ s'.addr - 1 :=
          min_le_right _ _
        rw [h2]
        omega
      · exact ih htail

lemma assignEnds_start_le_end {addrMax : Nat} {l : List NoiSymbol}
    (hsort : l.Pairwise (fun a b => a.addr < b.addr))
    (hbound : ∀ s ∈ l, s.addr ≤ addrMax) :
    ∀ r ∈ assignEnds addrMax l, r.addr ≤ r.end_ := by
  induction l with
  | nil => simp [assignEnds]
  | cons s rest ih =>
    cases rest with
    | nil =>
      intro r hr
      simp only [assignEnds, List.mem_singleton] at hr
      subst hr
      exact hbound s (by simp)
    | cons s' rest' =>
      intro r hr
      simp only [assignEnds, List.mem_cons] at hr
      rcases hr with rfl | hr'
      · have h1 : s.addr ≤ addrMax := hbound s (by simp)
        have h2 : s.addr < s'.addr :=
          (List.pairwise_cons.mp hsort).1 s' (by simp)
        simp only
        omega
      · exact ih (List.pairwise_cons.mp hsort).2
          (fun t ht => hbound t (List.mem_cons_of_mem _ ht)) r hr'

lemma filter_bank_addr_pairwise (table : List NoiSymbol) (b : Nat)
    (hdedup : (table.map symKey).Nodup) :
    (table.filter (fun s => s.bank == b)).Pairwise
      (fun a a' => a.addr ≠ a'.addr) := by
  have h1 : table.Pairwise (fun a a' => symKey a ≠ symKey a') :=
    List.pairwise_map.mp hdedup
  have h2 := h1.filter (fun s => s.bank == b)
  refine h2.imp_of_mem (fun {a} {a'} ha ha' hk heq => hk ?_)
  have hab : a.bank = b := by simpa using (List.mem_filter.mp ha).2
  have hab' : a'.bank = b := by simpa using (List.mem_filter.mp ha').2
  simp [symKey, hab, hab', heq]

lemma sortByAddr_strict (l : List NoiSymbol)
    (hnd : l.Pairwise (fun a a' => a.addr ≠ a'.addr)) :
    (sortByAddr l).Pairwise (fun a a' => a.addr < a'.addr) := by
  have hs : List.Sorted (fun a a' : NoiSymbol => a.addr ≤ a'.addr)
      (sortByAddr l) := List.sorted_insertionSort _ l
  have hperm : (sortByAddr l).Perm l := List.perm_insertionSort _ l
  have hnd' : (sortByAddr l).Pairwise (fun a a' => a.addr ≠ a'.addr) :=
    (hperm.pairwise_iff (fun h => Ne.symm h)).mpr hnd
  exact (hs.and hnd').imp (fun h => lt_of_le_of_ne h.1 h.2)

lemma perBank_strict (table : List NoiSymbol) (b : Nat)
    (hdedup : (table.map symKey).Nodup) :
    (sortByAddr (table.filter (fun s => s.bank == b))).Pairwise
      (fun a a' => a.addr < a'.addr) :=
  sortByAddr_strict _ (filter_bank_addr_pairwise table b hdedup)

lemma mem_perBank_props {table : List NoiSymbol} {b : Nat} {r : Region}
    (hr : r ∈ assignEnds (if b = 0 then 0x3fff else 0x7fff)
      (sortByAddr (table.filter (fun s => s.bank == b)))) :
    ∃ s ∈ table, r.symbol = s.symbol ∧ r.addr = s.addr ∧ r.bank = s.bank ∧
      r.bank = b ∧ r.end_ ≤ bankMaxAddr b := by
  obtain ⟨t, ht, h1, h2, h3, h4⟩ := mem_assignEnds hr
  have ht' : t ∈ table.filter (fun s => s.bank == b) :=
    ((List.perm_insertionSort _ _).mem_iff).mp ht
  obtain ⟨htt, htb⟩ := List.mem_filter.mp ht'
  have htbank : t.bank = b := by simpa using htb
  exact ⟨t, htt, h1, h2, h3, h3.trans htbank, h4⟩

lemma bankFirstAppearanceAux_props (l seen : List Nat) :
    (bankFirstAppearanceAux l seen).Nodup ∧
    (∀ b ∈ bankFirstAppearanceAux l seen, b ∉ seen) := by
  induction l generalizing seen with
  | nil => simp [bankFirstAppearanceAux]
  | cons b rest ih =>
    rw [bankFirstAppearanceAux]
    by_cases hb : b ∈ seen
    · rw [if_pos hb]
      exact ih seen
    · rw [if_neg hb]
      obtain ⟨hnd, hnotin⟩ := ih (b :: seen)
      refine ⟨List.nodup_cons.mpr ⟨fun hmem => ?_, hnd⟩, ?_⟩
      · exact hnotin b hmem (by simp)
      · intro c hc
        rcases List.mem_cons.mp hc with rfl | hc'
        · exact hb
        · exact fun hcs => hnotin c hc' (List.mem_cons_of_mem _ hcs)

lemma bankFirstAppearance_nodup (banks : List Nat) :
    (bankFirstAppearance banks).Nodup :=
  (bankFirstAppearanceAux_props banks []).1

lemma mem_generateFunctionRegions {table : List NoiSymbol} {r : Region}
    (h : r ∈ generateFunctionRegions table) :
    ∃ s ∈ table, r.symbol = s.symbol ∧ r.addr = s.addr ∧ r.bank = s.bank ∧
      r.end_ ≤ bankMaxAddr r.bank := by
  rw [generateFunctionRegions, List.mem_flatMap] at h
  obtain ⟨b, _, hr⟩ := h
  obtain ⟨s, hs, h1, h2, h3, hb, h4⟩ := mem_perBank_props hr
  exact ⟨s, hs, h1, h2, h3, by rw [hb]; exact h4⟩

lemma generateFunctionRegions_disjoint (table : List NoiSymbol)
    (hdedup : (table.map symKey).Nodup) :
    (generateFunctionRegions table).Pairwise
      (fun r r' => r.bank = r'.bank → r.end_ < r'.addr ∨ r'.end_ < r.addr) := by
  rw [generateFunctionRegions, List.flatMap_def, List.pairwise_flatten]
  constructor
  · intro sub hsub
    rw [List.mem_map] at hsub
    obtain ⟨b, _, rfl⟩ := hsub
    have hpw := @assignEnds_pairwise (if b = 0 then 0x3fff else 0x7fff) _
      (perBank_strict table b hdedup)
    exact hpw.imp (fun h _ => Or.inl h)
  · rw [List.pairwise_map]
    have hnd : (bankFirstAppearance (table.map (·.bank))).Pairwise
        (fun b b' => b ≠ b') := bankFirstAppearance_nodup _
    refine hnd.imp_of_mem (fun {b} {b'} _ _ hne x hx y hy hbank => ?_)
    obtain ⟨_, _, _, _, _, hxb, _⟩ := mem_perBank_props hx
    obtain ⟨_, _, _, _, _, hyb, _⟩ := mem_perBank_props hy
    exact absurd (hxb.symm.trans (hbank.trans hyb)) hne

/-! ## Claim C4: region well-formedness -/

/-- Claim C4 counterexample: the singleton symbol table with a bank-1
symbol at address 0x9000 is trivially deduplicated by (bank, address),
yet the Region Builder assigns it the bank maximum 0x7FFF as end address,
producing a region with start 0x9000 > end 0x7FFF. -/
theorem region_start_le_end_false :
    generateFunctionRegions [⟨"f", 0x9000, 1⟩] =
      [⟨"f", 0x9000, 1, 0x7fff⟩] ∧
    (([⟨"f", 0x9000, 1⟩] : List NoiSymbol).map symKey).Nodup ∧
    ¬ ((⟨"f", 0x9000, 1, 0x7fff⟩ : Region).addr ≤
        (⟨"f", 0x9000, 1, 0x7fff⟩ : Region).end_) := by
  refine ⟨?_, ?_, ?_⟩ <;> decide

/-- Claim C4 (amended): for every symbol table deduplicated by
(bank, address) in which every symbol's address is at most its bank's
maximum address (0x3FFF for bank 0, 0x7FFF otherwise — as is the case for
any address the bank rule of the parser can produce for bank 0, but not
in general), every region produced by the Region Builder satisfies
start ≤ end; and (for any deduplicated table, without the address bound)
any two distinct regions assigned to the same bank have disjoint
[start, end] intervals. -/
theorem regions_wellformed (table : List NoiSymbol)
    (hdedup : (table.map symKey).Nodup) :
    ((∀ s ∈ table, s.addr ≤ bankMaxAddr s.bank) →
      ∀ r ∈ generateFunctionRegions table, r.addr ≤ r.end_) ∧
    (generateFunctionRegions table).Pairwise
      (fun r r' => r.bank = r'.bank →
        ∀ x : Nat,
          ¬ (r.addr ≤ x ∧ x ≤ r.end_ ∧ r'.addr ≤ x ∧ x ≤ r'.end_)) := by
  constructor
  · intro hbound r hr
    rw [generateFunctionRegions, List.mem_flatMap] at hr
    obtain ⟨b, _, hrb⟩ := hr
    refine assignEnds_start_le_end (perBank_strict table b hdedup)
      (fun t ht => ?_) r hrb
    have ht' : t ∈ table.filter (fun s => s.bank == b) :=
      ((List.perm_insertionSort _ _).mem_iff).mp ht
    obtain ⟨htt, htb⟩ := List.mem_filter.mp ht'
    have htbank : t.bank = b := by simpa using htb
    have := hbound t htt
    rw [htbank, bankMaxAddr] at this
    exact this
  · exact (generateFunctionRegions_disjoint table hdedup).imp
      (fun h hbank x hx => by
        rcases h hbank with h' | h' <;> omega)

/-- Claim C4 witness: the scenario symbol table is deduplicated, and its
regions (`main:[0x150,0x1FF]`, `helper:[0x200,0x3FFF]`) satisfy
start ≤ end under the (satisfied) address bound and are pairwise
disjoint. -/
theorem regions_wellformed_witness :
    (scenarioTable.map symKey).Nodup ∧
    (((∀ s ∈ scenarioTable, s.addr ≤ bankMaxAddr s.bank) →
      ∀ r ∈ generateFunctionRegions scenarioTable, r.addr ≤ r.end_) ∧
      (generateFunctionRegions scenarioTable).Pairwise
        (fun r r' => r.bank = r'.bank →
          ∀ x : Nat,
            ¬ (r.addr ≤ x ∧ x ≤ r.end_ ∧ r'.addr ≤ x ∧ x ≤ r'.end_))) :=
  ⟨by decide, regions_wellformed scenarioTable (by decide)⟩

/-! ## Claim C5: cached lookup refines full search -/

lemma find?_eq_some_of_unique {α : Type} (p : α → Bool) (l : List α) (a : α)
    (ha : a ∈ l) (hpa : p a = true)
    (huniq : ∀ x ∈ l, ∀ y ∈ l, p x = true → p y = true → x = y) :
    l.find? p = some a := by
  induction l with
  | nil => simp at ha
  | cons b rest ih =>
    rw [List.find?_cons]
    cases hpb : p b with
    | true =>
      exact congrArg some (huniq b (by simp) a ha hpb hpa).symm ▸ rfl
    | false =>
      have ha' : a ∈ rest := by
        rcases List.mem_cons.mp ha with rfl | h
        · rw [hpa] at hpb; cases hpb
        · exact h
      exact ih ha' (fun x hx y hy =>
        huniq x (List.mem_cons_of_mem _ hx) y (List.mem_cons_of_mem _ hy))

/-- Claim C5: over a region table built from a (bank, address)-
deduplicated symbol table whose bank-0 symbols lie below 0x4000 and whose
other banks' symbols lie in [0x4000, 0x7FFF], the cached lookup — first
testing whether the previously resolved region still contains the new
(pc, bank), otherwise performing the full per-bank search — returns
exactly the same region (or none) as the uncached full search, for every
(pc, bank) query and every cache value that is none or a region of the
table (every cache state reachable from prior lookups is of this form,
since lookups only ever return table regions). -/
theorem cached_lookup_correct (table : List NoiSymbol)
    (hdedup : (table.map symKey).Nodup)
    (hbanks : ∀ s ∈ table,
      (s.bank = 0 → s.addr < 0x4000) ∧
      (s.bank ≠ 0 → 0x4000 ≤ s.addr ∧ s.addr ≤ 0x7fff))
    (cur : Option Region)
    (hcur : cur = none ∨
      ∃ r ∈ generateFunctionRegions table, cur = some r)
    (pc bank : Nat) :
    getCurrentFunctionRegion (generateFunctionRegions table) cur pc bank =
      fullSearchRegion (generateFunctionRegions table) pc bank := by
  cases cur with
  | none => rfl
  | some fn =>
    have hfn : fn ∈ generateFunctionRegions table := by
      rcases hcur with h | ⟨r, hr, he⟩
      · cases h
      · cases he
        exact hr
    rw [getCurrentFunctionRegion]
    split
    case isTrue hc =>
      obtain ⟨hfa, hfe, hbk⟩ := hc
      obtain ⟨s, hs, _, haddr, hbank, hend⟩ := mem_generateFunctionRegions hfn
      have htb : fn.bank = (if pc < 0x4000 then 0 else bank) := by
        by_cases hlow : pc < 0x4000
        · rw [if_pos hlow]
          by_contra hne
          have h40 := ((hbanks s hs).2 (by rw [← hbank]; exact hne)).1
          omega
        · rw [if_neg hlow]
          rcases hbk with h | h
          · exact absurd h hlow
          · exact h
      rw [fullSearchRegion, findRegion]
      refine (find?_eq_some_of_unique _ _ fn ?_ ?_ ?_).symm
      · exact List.mem_filter.mpr ⟨hfn, by simp [regionsByBank, htb]⟩
      · simp [hfa, hfe]
      · intro x hx y hy hpx hpy
        simp only [regionsByBank, List.mem_filter, beq_iff_eq] at hx hy
        by_contra hne
        have hsym : Symmetric (fun r r' : Region =>
            r.bank = r'.bank → r.end_ < r'.addr ∨ r'.end_ < r.addr) := by
          intro r r' h hb
          rcases h hb.symm with h' | h'
          · exact Or.inr h'
          · exact Or.inl h'
        have hdisj := (generateFunctionRegions_disjoint table hdedup).forall
          hsym hx.1 hy.1 hne (hx.2.trans hy.2.symm)
        simp only [Bool.and_eq_true, decide_eq_true_eq] at hpx hpy
        rcases hdisj with h' | h' <;> omega
    case isFalse => rfl

/-- Claim C5 witness: with the scenario table, cache = the `helper`
region, pc = 0x151 (a cache miss, inside `main`), bank 0: the cached
lookup agrees with the uncached full search. -/
theorem cached_lookup_correct_witness :
    ((scenarioTable.map symKey).Nodup ∧
      (∀ s ∈ scenarioTable,
        (s.bank = 0 → s.addr < 0x4000) ∧
        (s.bank ≠ 0 → 0x4000 ≤ s.addr ∧ s.addr ≤ 0x7fff)) ∧
      (some (⟨"helper", 0x200, 0, 0x3fff⟩ : Region) = none ∨
        ∃ r ∈ generateFunctionRegions scenarioTable,
          some (⟨"helper", 0x200, 0, 0x3fff⟩ : Region) = some r)) ∧
    getCurrentFunctionRegion (generateFunctionRegions scenarioTable)
      (some ⟨"helper", 0x200, 0, 0x3fff⟩) 0x151 0 =
      fullSearchRegion (generateFunctionRegions scenarioTable) 0x151 0 :=
  ⟨⟨by decide, by decide, by decide⟩,
    cached_lookup_correct scenarioTable (by decide) (by decide)
      (some ⟨"helper", 0x200, 0, 0x3fff⟩) (by decide) 0x151 0⟩

/-! ## Claim C6: window additivity of the aggregator -/

lemma pushTime_times (k : String) (t : Nat)
    (st : List (String × List Nat)) (p : String × List Nat)
    (hp : p ∈ pushTime k t st) (u : Nat) (hu : u ∈ p.2) :
    u = t ∨ ∃ q ∈ st, u ∈ q.2 := by
  induction st with
  | nil =>
    simp only [pushTime, List.mem_singleton] at hp
    subst hp
    simp only [List.mem_singleton] at hu
    exact Or.inl hu
  | cons q rest ih =>
    obtain ⟨k', ts⟩ := q
    rw [pushTime] at hp
    by_cases hk : k' = k
    · rw [if_pos hk] at hp
      rcases List.mem_cons.mp hp with rfl | hp'
      · rcases List.mem_cons.mp hu with h | hu'
        · exact Or.inl h
        · exact Or.inr ⟨(k', ts), by simp, hu'⟩
      · exact Or.inr ⟨p, List.mem_cons_of_mem _ hp', hu⟩
    · rw [if_neg hk] at hp
      rcases List.mem_cons.mp hp with rfl | hp'
      · exact Or.inr ⟨(k', ts), by simp, hu⟩
      · rcases ih hp' with h | ⟨q', hq', hu'⟩
        · exact Or.inl h
        · exact Or.inr ⟨q', List.mem_cons_of_mem _ hq', hu'⟩

lemma popTime_times (k : String) (st : List (String × List Nat)) (t : Nat)
    (st' : List (String × List Nat)) (h : popTime k st = some (t, st')) :
    (∃ q ∈ st, t ∈ q.2) ∧
    (∀ p ∈ st', ∀ u ∈ p.2, ∃ q ∈ st, u ∈ q.2) := by
  induction st generalizing st' with
  | nil => simp [popTime] at h
  | cons q rest ih =>
    obtain ⟨k', ts⟩ := q
    have hdef : popTime k ((k', ts) :: rest) =
        (if k' = k then
          (match ts with
           | [] => none
           | t :: ts' => some (t, (k', ts') :: rest))
        else
          (popTime k rest).map (fun p => (p.1, (k', ts) :: p.2))) := rfl
    rw [hdef] at h
    by_cases hk : k' = k
    · rw [if_pos hk] at h
      cases ts with
      | nil => simp at h
      | cons t0 ts' =>
        simp only [Option.some.injEq, Prod.mk.injEq] at h
        obtain ⟨rfl, rfl⟩ := h
        constructor
        · exact ⟨(k', t0 :: ts'), by simp, by simp⟩
        · intro p hp u hu
          rcases List.mem_cons.mp hp with rfl | hp'
          · exact ⟨(k', t0 :: ts'), by simp, List.mem_cons_of_mem _ hu⟩
          · exact ⟨p, List.mem_cons_of_mem _ hp', hu⟩
    · rw [if_neg hk] at h
      cases hrec : popTime k rest with
      | none =>
        rw [hrec] at h
        simp at h
      | some p0 =>
        obtain ⟨t0, strest⟩ := p0
        rw [hrec] at h
        simp only [Option.map_some', Option.some.injEq, Prod.mk.injEq] at h
        obtain ⟨rfl, rfl⟩ := h
        obtain ⟨⟨q0, hq0, ht0⟩, hrest⟩ := ih _ hrec
        constructor
        · exact ⟨q0, List.mem_cons_of_mem _ hq0, ht0⟩
        · intro p hp u hu
          rcases List.mem_cons.mp hp with rfl | hp'
          · exact ⟨(k', ts), by simp, hu⟩
          · obtain ⟨q1, hq1, hu1⟩ := hrest p hp' u hu
            exact ⟨q1, List.mem_cons_of_mem _ hq1, hu1⟩

lemma pairFold_wf (events : List TraceEvent)
    (st : List (String × List Nat)) (act : List OccInterval)
    (hsorted : events.Pairwise (fun e e' => e.at_ ≤ e'.at_))
    (hstack : ∀ p ∈ st, ∀ u ∈ p.2, ∀ e ∈ events, u ≤ e.at_)
    (hact : ∀ iv ∈ act, ∀ e, iv.end_ = some e → iv.start ≤ e) :
    ∀ iv ∈ (events.foldl pairFold (st, act)).2, ∀ e, iv.end_ = some e →
      iv.start ≤ e := by
  induction events generalizing st act with
  | nil => simpa using hact
  | cons ev rest ih =>
    obtain ⟨hhead, htail⟩ := List.pairwise_cons.mp hsorted
    rw [List.foldl_cons]
    cases hty : ev.type with
    | O =>
      have hPF : pairFold (st, act) ev = (pushTime ev.frame ev.at_ st, act) := by
        simp [pairFold, hty]
      rw [hPF]
      refine ih _ _ htail ?_ hact
      intro p hp u hu e he
      rcases pushTime_times _ _ _ p hp u hu with rfl | ⟨q, hq, hu'⟩
      · exact hhead e he
      · exact hstack q hq u hu' e (List.mem_cons_of_mem _ he)
    | C =>
      cases hpop : popTime ev.frame st with
      | none =>
        have hPF : pairFold (st, act) ev = (st, act) := by
          simp [pairFold, hty, hpop]
        rw [hPF]
        exact ih _ _ htail
          (fun p hp u hu e he => hstack p hp u hu e (List.mem_cons_of_mem _ he))
          hact
      | some pr =>
        obtain ⟨tpop, st'⟩ := pr
        have hPF : pairFold (st, act) ev =
            (st', act ++ [⟨tpop, some ev.at_, ev.frame⟩]) := by
          simp [pairFold, hty, hpop]
        rw [hPF]
        obtain ⟨⟨q0, hq0, htpop⟩, hsub⟩ := popTime_times _ _ _ _ hpop
        refine ih _ _ htail ?_ ?_
        · intro p hp u hu e he
          obtain ⟨q1, hq1, hu1⟩ := hsub p hp u hu
          exact hstack q1 hq1 u hu1 e (List.mem_cons_of_mem _ he)
        · intro iv hiv e he
          rcases List.mem_append.mp hiv with h | h
          · exact hact iv h e he
          · simp only [List.mem_singleton] at h
            subst h
            simp only at he
            cases he
            exact hstack q0 hq0 tpop htpop ev (by simp)

lemma allIntervals_wf (events : List TraceEvent)
    (hsorted : events.Pairwise (fun e e' => e.at_ ≤ e'.at_)) :
    ∀ iv ∈ allIntervals events, ∀ e, iv.end_ = some e → iv.start ≤ e := by
  intro iv hiv e he
  simp only [allIntervals] at hiv
  rcases List.mem_append.mp hiv with h | h
  · exact pairFold_wf events [] [] hsorted (by simp) (by simp) iv h e he
  · simp only [List.mem_flatMap, List.mem_map] at h
    obtain ⟨p, _, t, _, rfl⟩ := h
    simp at he

lemma sum_map_filter_eq (l : List OccInterval) (p : OccInterval → Bool)
    (f : OccInterval → Int) :
    ((l.filter p).map f).sum =
      (l.map (fun x => if p x then f x else 0)).sum := by
  induction l with
  | nil => rfl
  | cons x xs ih =>
    rw [List.filter_cons]
    by_cases h : p x
    · simp [h, ih]
    · simp [h, ih]

lemma sum_map_add (l : List OccInterval) (f g : OccInterval → Int) :
    (l.map f).sum + (l.map g).sum = (l.map (fun x => f x + g x)).sum := by
  induction l with
  | nil => rfl
  | cons x xs ih =>
    simp only [List.map_cons, List.sum_cons]
    omega

lemma contrib_split (iv : OccInterval) (a m b : Nat) (name : String)
    (hwf : ∀ e, iv.end_ = some e → iv.start ≤ e)
    (ham : a ≤ m) (hmb : m ≤ b) :
    (if (iv.frame == name) && ivOverlaps iv a m then
      clampedDuration a m iv else 0) +
    (if (iv.frame == name) && ivOverlaps iv m b then
      clampedDuration m b iv else 0) =
    (if (iv.frame == name) && ivOverlaps iv a b then
      clampedDuration a b iv else 0) := by
  obtain ⟨s, e?, fr⟩ := iv
  by_cases hname : (fr == name) = true
  · cases e? with
    | none =>
      simp only [ivOverlaps, clampedDuration, hname, Bool.true_and]
      by_cases h1 : s < m <;> by_cases h2 : s < b <;>
        simp [h1, h2] <;> omega
    | some e =>
      have hse : s ≤ e := hwf e rfl
      simp only [ivOverlaps, clampedDuration, hname, Bool.true_and]
      by_cases h1 : a < e <;> by_cases h2 : s < m <;> by_cases h3 : m < e <;>
        by_cases h4 : s < b <;> by_cases h5 : a < m <;>
        simp [h1, h2, h3, h4, h5] <;> omega
  · simp only [Bool.and_eq_true] at *
    simp [hname]

/-- Claim C6: for every recorded event sequence with non-decreasing
timestamps and all windows with a ≤ m ≤ b, the per-symbol summed duration
reported by the window aggregator over [a, m) plus the one over [m, b)
equals the one over [a, b). -/
theorem window_additivity (events : List TraceEvent) (a m b : Nat)
    (name : String)
    (hsorted : events.Pairwise (fun e e' => e.at_ ≤ e'.at_))
    (ham : a ≤ m) (hmb : m ≤ b) :
    symbolDuration events a m name + symbolDuration events m b name =
      symbolDuration events a b name := by
  have hrw : ∀ x y : Nat, symbolDuration events x y name =
      ((allIntervals events).map (fun iv =>
        if (iv.frame == name) && ivOverlaps iv x y then
          clampedDuration x y iv else 0)).sum := by
    intro x y
    rw [symbolDuration, eventsBetween, List.filter_filter, sum_map_filter_eq]
  rw [hrw, hrw, hrw, sum_map_add]
  refine congrArg List.sum (List.map_congr_left ?_)
  intro iv hiv
  exact contrib_split iv a m b name (allIntervals_wf events hsorted iv hiv)
    ham hmb

/-- Claim C6 witness: the trace [Open f at 0, Close f at 5] with window
[0,5) split at 2 gives 2 + 3 = 5 for symbol f. -/
theorem window_additivity_witness :
    (([openEvent "f" 0, ⟨EventType.C, 5, "f", some 0⟩] :
        List TraceEvent).Pairwise (fun e e' => e.at_ ≤ e'.at_) ∧
      (0 : Nat) ≤ 2 ∧ (2 : Nat) ≤ 5) ∧
    symbolDuration [openEvent "f" 0, ⟨EventType.C, 5, "f", some 0⟩] 0 2 "f" +
      symbolDuration [openEvent "f" 0, ⟨EventType.C, 5, "f", some 0⟩] 2 5
        "f" =
      symbolDuration [openEvent "f" 0, ⟨EventType.C, 5, "f", some 0⟩] 0 5
        "f" :=
  ⟨⟨by decide, by decide, by decide⟩,
    window_additivity [openEvent "f" 0, ⟨EventType.C, 5, "f", some 0⟩] 0 2 5
      "f" (by decide) (by decide) (by decide)⟩
